import Mathlib

/-!
Verification of the Intel HEX utilities (intel_hex_utils).

The C++ source is shallowly embedded: a text line (as produced by
`std::getline`, i.e. without the trailing newline but possibly with a
trailing carriage return) is a `List Char`; a file is a `List Line`.
`std::stoi(_, nullptr, 16)` is modelled by `stoiHex`, which returns
`none` where `stoi` would throw (no digits converted); every function
that can propagate such an exception returns an `Option`.
Machine integers are `Nat` with explicit reductions: `uint8_t` casts are
`% 256`, `uint16_t` casts are `% 65536`, `uint32_t` arithmetic is
`% U32`.  `std::map<uint32_t,uint8_t>` is an association list whose
ascending-key iteration order is expressed by the `mapSortedB`
invariant, which `mapInsert` (the `operator[]` assignment) preserves.
-/

namespace IntelHex

abbrev Line := List Char

abbrev MemoryImage := List (Nat × Nat)

def U32 : Nat := 4294967296

/-- Numeric value of a hexadecimal digit character (`0-9`, `a-f`,
`A-F`), by ASCII code: digits are 0x30-0x39, lowercase letters
0x61-0x66 (value = code - 0x57), uppercase 0x41-0x46 (code - 0x37). -/
def hexDigitVal (c : Char) : Option Nat :=
  if 0x30 ≤ c.toNat && c.toNat ≤ 0x39 then some (c.toNat - 0x30)
  else if 0x61 ≤ c.toNat && c.toNat ≤ 0x66 then some (c.toNat - 0x57)
  else if 0x41 ≤ c.toNat && c.toNat ≤ 0x46 then some (c.toNat - 0x37)
  else none

/-- `isHexChar` from the source (`std::isxdigit` in the C locale). -/
def isHexChar (c : Char) : Bool := (hexDigitVal c).isSome

/-- `std::isspace` in the C locale (skipped by `std::stoi`). -/
def isSpaceChar (c : Char) : Bool :=
  c = ' ' || c = '\t' || c = '\n' || c = '\x0b' || c = '\x0c' || c = '\r'

/-- Value of a list of hex digits, most significant first. -/
def hexDigitsVal (ds : List Char) : Nat :=
  ds.foldl (fun a c => a * 16 + (hexDigitVal c).getD 0) 0

/-- The longest leading run of hex digits of a string. -/
def hexRun (s : List Char) : List Char := s.takeWhile isHexChar

/-- `std::stoi(s, nullptr, 16)`: skip leading whitespace, optional sign,
optional `0x`/`0X` prefix when followed by a hex digit, then the longest
run of hex digits; `none` models the `std::invalid_argument` exception
thrown when no digit is converted.  (Overflow cannot occur at the call
sites: every argument has at most 4 characters.) -/
def stoiHex (s : List Char) : Option Int :=
  let s1 := s.dropWhile isSpaceChar
  let neg : Bool := s1.head? == some '-'
  let s2 : List Char :=
    if s1.head? == some '-' || s1.head? == some '+' then s1.tail else s1
  let s3 : List Char :=
    if s2.head? == some '0' && (s2.tail.head? == some 'x' || s2.tail.head? == some 'X')
        && ((s2.tail.tail.head?.map isHexChar).getD false)
    then s2.tail.tail else s2
  if hexRun s3 = [] then none
  else some (if neg then -(hexDigitsVal (hexRun s3) : Int) else (hexDigitsVal (hexRun s3) : Int))

/-- `s.substr(pos, n)`: `none` models the `std::out_of_range` exception
thrown when `pos` exceeds the length; otherwise up to `n` characters. -/
def substrQ (s : List Char) (pos n : Nat) : Option (List Char) :=
  if pos ≤ s.length then some ((s.drop pos).take n) else none

/-- `parseHexByte` / `hexByte` from the source:
`static_cast<uint8_t>(std::stoi(str.substr(pos, 2), nullptr, 16))`. -/
def parseHexByte (s : List Char) (pos : Nat) : Option Nat :=
  ((substrQ s pos 2).bind stoiHex).map (fun i => (i % 256).toNat)

/-- `static_cast<uint16_t>(std::stoi(line.substr(pos, 4), nullptr, 16))`,
used for the address field (pos 3) and extended-address payload (pos 9). -/
def stoi16At (s : List Char) (pos : Nat) : Option Nat :=
  ((substrQ s pos 4).bind stoiHex).map (fun i => (i % 65536).toNat)

/-- `trimTrailing`: erase trailing characters among space, CR, LF. -/
def trimTrailing (l : Line) : Line :=
  (l.reverse.dropWhile (fun c => c = ' ' || c = '\r' || c = '\n')).reverse

/-- `rtrim`: erase trailing characters among CR, LF, space, TAB. -/
def rtrim (l : Line) : Line :=
  (l.reverse.dropWhile (fun c => c = '\r' || c = '\n' || c = ' ' || c = '\t')).reverse

/-- One `parseHexByte(line, i)` of the checksum loop, applied to the
(at most two) characters `line.substr(i, 2)`. -/
def byteOfChars (cs : List Char) : Option Nat :=
  (stoiHex cs).map (fun i => (i % 256).toNat)

/-- The loop of `validateLineChecksum`: `for (i = 1; i < len; i += 2)
sum += parseHexByte(line, i);` with `sum : uint8_t`, presented
structurally on the characters after the leading colon (each iteration
consumes the two characters `substr(i, 2)`; a final lone character is
consumed by a last iteration). -/
def sumPairs : List Char → Nat → Option Nat
  | [], s => some s
  | [c], s => (byteOfChars [c]).map (fun b => (s + b) % 256)
  | c1 :: c2 :: rest, s =>
    match byteOfChars [c1, c2] with
    | some b => sumPairs rest ((s + b) % 256)
    | none => none

/-- `validateLineChecksum`: the 8-bit sum of all byte pairs after the
colon must be 0; `none` models a propagated `stoi` exception. -/
def validateLineChecksum (line : Line) : Option Bool :=
  (sumPairs (line.drop 1) 0).map (fun s => s == 0)

/-- The payload-reading loop of a data record:
`for (i = 0; i < byteCount; ++i) parseHexByte(line, 9 + i * 2)`. -/
def readPayloadAux (l : Line) : Nat → Nat → Option (List Nat)
  | _, 0 => some []
  | i, k + 1 =>
    match parseHexByte l (9 + i * 2) with
    | some b =>
      match readPayloadAux l (i + 1) k with
      | some bs => some (b :: bs)
      | none => none
    | none => none

def readPayload (l : Line) (byteCount : Nat) : Option (List Nat) :=
  readPayloadAux l 0 byteCount

/-- `std::map` assignment `m[k] = v`: insert keeping ascending key order,
overwriting an existing entry. -/
def mapInsert : MemoryImage → Nat → Nat → MemoryImage
  | [], k, v => [(k, v)]
  | (k', v') :: rest, k, v =>
    if k < k' then (k, v) :: (k', v') :: rest
    else if k = k' then (k, v) :: rest
    else (k', v') :: mapInsert rest k v

/-- `std::map::find` (by exact key). -/
def mapFind : MemoryImage → Nat → Option Nat
  | [], _ => none
  | (k, v) :: rest, a => if a = k then some v else mapFind rest a

/-- Ascending-key ordering invariant of `std::map`'s entry list. -/
def mapSortedB : MemoryImage → Bool
  | [] => true
  | [_] => true
  | p :: q :: rest => decide (p.1 < q.1) && mapSortedB (q :: rest)

/-- The byte-writing loop of a data record: the `i`-th byte goes to
`absoluteAddress + i` in `uint32_t` arithmetic. -/
def writeBytes : MemoryImage → Nat → List Nat → MemoryImage
  | m, _, [] => m
  | m, a, b :: bs => writeBytes (mapInsert m (a % U32) b) (a + 1) bs

/-- `(extendedLinearAddress << 16) | address` in `uint32_t` arithmetic. -/
def absAddr (ext addr : Nat) : Nat := ((ext <<< 16) % U32) ||| addr

/-- The loop of `parseIntelHex` (the lenient builder behind
`calculateFlashPagesUsed`), carrying the extended-linear-address state
and the accumulated image; the final state is returned so that the
extended-address evolution can be stated.  `none` models a propagated
exception from `stoi`/`substr`.  Lines not starting with `:` are
skipped; an EOF record stops the loop (`break`). -/
def parseGoS : List Line → Nat → MemoryImage → Option (Nat × MemoryImage)
  | [], ext, m => some (ext, m)
  | l :: ls, ext, m =>
    if l.head? ≠ some ':' then parseGoS ls ext m
    else
      match parseHexByte l 1, stoi16At l 3, parseHexByte l 7 with
      | some bc, some addr, some ty =>
        if ty = 0 then
          match readPayload l bc with
          | some payload => parseGoS ls ext (writeBytes m (absAddr ext addr) payload)
          | none => none
        else if ty = 4 then
          match stoi16At l 9 with
          | some e => parseGoS ls e m
          | none => none
        else if ty = 1 then some (ext, m)
        else parseGoS ls ext m
      | _, _, _ => none

/-- `parseIntelHex`: absolute address → data byte map of the file. -/
def parseIntelHex (lines : List Line) : Option MemoryImage :=
  (parseGoS lines 0 []).map Prod.snd

/-- `computePagesUsed`: 0 for an empty image, otherwise
`maxAddr / pageSize - minAddr / pageSize + 1` with `minAddr` the first
and `maxAddr` the last key of the ordered map. -/
def computePagesUsed (m : MemoryImage) (pageSize : Nat) : Nat :=
  match m with
  | [] => 0
  | p :: rest =>
    let minAddr := p.1
    let maxAddr := ((p :: rest).getLast (List.cons_ne_nil p rest)).1
    maxAddr / pageSize - minAddr / pageSize + 1

/-- `calculateFlashPagesUsed` (file handle already opened; a `none`
result is the propagated parse exception). -/
def calculateFlashPagesUsed (lines : List Line) (flashPageSize : Nat) : Option Nat :=
  (parseIntelHex lines).map (fun m => computePagesUsed m flashPageSize)

/-- Uppercase hexadecimal digit character: code 0x30 + d for a decimal
digit, 0x41 + (d - 10) = 0x37 + d for a letter. -/
def hexCharU (d : Nat) : Char :=
  if d < 10 then Char.ofNat (0x30 + d) else Char.ofNat (0x37 + d)

/-- Base-16 digits of `n`, most significant first (fuel-structured so
that it reduces definitionally; `n` itself is always enough fuel). -/
def natToHexDigitsAux : Nat → Nat → List Nat
  | 0, _ => []
  | fuel + 1, n => if n = 0 then [] else natToHexDigitsAux fuel (n / 16) ++ [n % 16]

def natToHexDigits (n : Nat) : List Nat := natToHexDigitsAux n n

/-- `std::stringstream << std::hex << std::uppercase << a`:
minimal-width uppercase hexadecimal rendering, `"0"` for zero. -/
def toUpperHex (n : Nat) : String :=
  if n = 0 then "0" else String.mk ((natToHexDigits n).map hexCharU)

/-- The overlap-checking loop of a data record in `validateHexFile`:
`for (i = 0; i < byteCount; ++i)` with `a = absAddr + i` in `uint32_t`
arithmetic; `error a` is the first already-written address, `ok` the
grown `writtenAddresses` set. -/
def addrLoop : List Nat → Nat → Nat → Except Nat (List Nat)
  | w, _, 0 => Except.ok w
  | w, a, k + 1 =>
    if (a % U32) ∈ w then Except.error (a % U32)
    else addrLoop ((a % U32) :: w) (a + 1) k

/-- Outcome of the `validateHexFile` loop body on one line: an error
return (`fail`), continuation with the updated `eofSeen` / `extAddr` /
`writtenAddresses` state (`next`), or a propagated exception
(`thrown`, unreachable once the guards have passed). -/
inductive VStep where
  | fail (msg : String)
  | next (eof : Bool) (ext : Nat) (written : List Nat)
  | thrown
deriving DecidableEq

/-- The loop body of `validateHexFile` on the (already trimmed) line
`t`, where `n` is the 1-indexed number of this line. -/
def validateLine (t : Line) (n : Nat) (eof : Bool) (ext : Nat) (written : List Nat) : VStep :=
  if t.head? ≠ some ':' then
    VStep.fail ("Line " ++ toString n ++ " does not start with ':'")
  else if !(t.drop 1).all isHexChar then
    VStep.fail ("Invalid hex character at line " ++ toString n)
  else if t.length < 11 then
    VStep.fail ("Line " ++ toString n ++ " too short.")
  else
    match parseHexByte t 1, stoi16At t 3, parseHexByte t 7 with
    | some bc, some addr, some ty =>
      if t.length ≠ 9 + bc * 2 + 2 then
        VStep.fail ("Incorrect line length at line " ++ toString n)
      else
        match validateLineChecksum t with
        | some true =>
          if 5 < ty then
            VStep.fail ("Unknown record type at line " ++ toString n)
          else if ty = 1 then
            if eof then VStep.fail "Multiple EOF records detected."
            else VStep.next true ext written
          else if ty = 0 then
            match addrLoop written (absAddr ext addr) bc with
            | Except.error a =>
              VStep.fail ("Overlapping data at address 0x" ++ toUpperHex a)
            | Except.ok written' => VStep.next eof ext written'
          else if ty = 4 then
            match stoi16At t 9 with
            | some e => VStep.next eof e written
            | none => VStep.thrown
          else VStep.next eof ext written
        | some false =>
          VStep.fail ("Checksum mismatch at line " ++ toString n)
        | none => VStep.thrown
    | _, _, _ => VStep.thrown

/-- The loop of `validateHexFile`: `n` lines have been consumed so far
(messages are 1-indexed), `err` is the current value of `errorOut`.
The result pairs the return value with the final `errorOut`; `none`
models a propagated exception (unreachable after the guards). -/
def validateLines : List Line → Nat → Bool → Nat → List Nat → String → Option (Bool × String)
  | [], _, eof, _, _, err =>
    if eof then some (true, err) else some (false, "Missing EOF record.")
  | l :: ls, n, eof, ext, written, err =>
    match validateLine (trimTrailing l) (n + 1) eof ext written with
    | VStep.fail msg => some (false, msg)
    | VStep.next eof' ext' written' => validateLines ls (n + 1) eof' ext' written' err
    | VStep.thrown => none

/-- `validateHexFile` (file handle already opened): returns the verdict
together with the final value of the `errorOut` out-parameter. -/
def validateHexFile (lines : List Line) (errIn : String) : Option (Bool × String) :=
  validateLines lines 0 false 0 [] errIn

/-- `kBootSig`: the fixed 16-byte bootloader signature. -/
def kBootSig : List Nat :=
  [0x20, 0x0F, 0xF9, 0xA7, 0x17, 0x7D, 0x4E, 0x99,
   0xDB, 0x53, 0xA2, 0x72, 0xE7, 0xC3, 0xE1, 0xFA]

/-- The inner loop of `findPatternAddress`: check pattern bytes
`pat[i..]` at addresses `addr + i` (in `uint32_t` arithmetic). -/
def runMatches (mem : MemoryImage) (a : Nat) : Nat → List Nat → Bool
  | _, [] => true
  | i, p :: ps =>
    match mapFind mem ((a + i) % U32) with
    | some v => if v = p then runMatches mem a (i + 1) ps else false
    | none => false

/-- The scan of `findPatternAddress` over the map entries in ascending
key order (the call sites pass a non-empty pattern, so `headI` is the
`pat[0]` of the source). -/
def findPatFrom (mem : MemoryImage) (pat : List Nat) : List (Nat × Nat) → Option Nat
  | [] => none
  | (a, v) :: rest =>
    if v ≠ pat.headI then findPatFrom mem pat rest
    else if runMatches mem a 1 (pat.drop 1) then some a
    else findPatFrom mem pat rest

/-- `findPatternAddress`. -/
def findPatternAddress (mem : MemoryImage) (pat : List Nat) : Option Nat :=
  if mem.length < pat.length then none else findPatFrom mem pat mem

/-- The loop of `parseIntelHexToMap` (the strict builder behind
`extractBootloaderVersionFromHex`); `some` is returned only via the EOF
record (`sawEOF`), reaching the end of input without one yields the
`false` return, and any malformed line yields `false` as well (both are
`none` here; `return false` and a propagated exception are
indistinguishable to the caller, which only tests the `bool`). -/
def parseMapGo : List Line → Nat → MemoryImage → Option MemoryImage
  | [], _, _ => none
  | l :: ls, ext, m =>
    let t := rtrim l
    if t.isEmpty then parseMapGo ls ext m
    else if t.head? ≠ some ':' then none
    else if !(t.drop 1).all isHexChar then none
    else if t.length < 11 then none
    else
      match parseHexByte t 1, stoi16At t 3, parseHexByte t 7 with
      | some bc, some addr, some ty =>
        if t.length ≠ 1 + 2 * (bc + 5) then none
        else
          match validateLineChecksum t with
          | some true =>
            if ty = 0 then
              match readPayload t bc with
              | some payload => parseMapGo ls ext (writeBytes m (absAddr ext addr) payload)
              | none => none
            else if ty = 4 then
              if bc ≠ 2 then none
              else
                match stoi16At t 9 with
                | some e => parseMapGo ls e m
                | none => none
            else if ty = 1 then some m
            else parseMapGo ls ext m
          | some false => none
          | none => none
      | _, _, _ => none

def parseIntelHexToMap (lines : List Line) : Option MemoryImage :=
  parseMapGo lines 0 []

/-- The part of `extractBootloaderVersionFromHex` that runs on the
reconstructed memory image: locate the signature, then read the two
version bytes right after it. -/
def extractVersionFromMem (mem : MemoryImage) : Option (Nat × Nat) :=
  match findPatternAddress mem kBootSig with
  | none => none
  | some sigAddr =>
    match mapFind mem ((sigAddr + 16) % U32),
          mapFind mem (((sigAddr + 16) % U32 + 1) % U32) with
    | some hi, some lo => some (hi, lo)
    | some _, none => none
    | none, _ => none

/-- `extractBootloaderVersionFromHex` (file handle already opened):
the result carries the returned `bool` and the final values of the
`major` and `minor` out-parameters, whose entry values are the last two
arguments. -/
def extractBootloaderVersionFromHex (lines : List Line) (majorIn minorIn : Nat) :
    Bool × Nat × Nat :=
  match parseIntelHexToMap lines with
  | none => (false, majorIn, minorIn)
  | some mem =>
    match findPatternAddress mem kBootSig with
    | none => (false, majorIn, minorIn)
    | some sigAddr =>
      match mapFind mem ((sigAddr + 16) % U32),
            mapFind mem (((sigAddr + 16) % U32 + 1) % U32) with
      | some hi, some lo => (true, hi, lo)
      | some _, none => (false, majorIn, minorIn)
      | none, _ => (false, majorIn, minorIn)

/-! ### Spec-side predicates and encoders used to state the claims -/

/-- Uppercase-hex encoding of one byte as two characters. -/
def hex2 (b : Nat) : List Char := [hexCharU (b / 16), hexCharU (b % 16)]

def hexConcat : List Nat → List Char
  | [] => []
  | b :: bs => hex2 b ++ hexConcat bs

/-- A record line built from its fields, following the record grammar:
`':' BYTECOUNT(2) ADDRESS(4) RECTYPE(2) PAYLOAD(2 each) CHECKSUM(2)`. -/
def encodeRecord (bc addr ty : Nat) (payload : List Nat) (ck : Nat) : Line :=
  ':' :: hexConcat ([bc, addr / 256, addr % 256, ty] ++ payload ++ [ck])

/-- All numeric decoding performed by the lenient `parseIntelHex` loop
succeeds, up to (and including) the first EOF record; independent of the
extended-address state and of the image accumulated so far. -/
def lenientOk : List Line → Bool
  | [] => true
  | l :: ls =>
    if l.head? ≠ some ':' then lenientOk ls
    else
      match parseHexByte l 1, stoi16At l 3, parseHexByte l 7 with
      | some bc, some _, some ty =>
        if ty = 0 then (readPayload l bc).isSome && lenientOk ls
        else if ty = 4 then (stoi16At l 9).isSome && lenientOk ls
        else if ty = 1 then true
        else lenientOk ls
      | _, _, _ => false

/-- An (untrimmed) line that the lenient parser would process as an EOF
record (type 0x01). -/
def isEofRecordLine (l : Line) : Bool :=
  l.head? == some ':' &&
  (match parseHexByte l 1, stoi16At l 3, parseHexByte l 7 with
   | some _, some _, some ty => ty == 1
   | _, _, _ => false)

/-- An (untrimmed) line that the lenient parser would process as an
extended-linear-address record (type 0x04). -/
def isExtRecordLine (l : Line) : Bool :=
  l.head? == some ':' &&
  (match parseHexByte l 1, stoi16At l 3, parseHexByte l 7 with
   | some _, some _, some ty => ty == 4
   | _, _, _ => false)

/-- The 16-bit value of the most recently seen type-0x04 record of a
line sequence (`ext` if none has been seen; a found record always
decodes in a successfully parsed prefix, so the inner default is
immaterial). -/
def lastExtFrom (ext : Nat) (lines : List Line) : Nat :=
  match lines.reverse.find? isExtRecordLine with
  | some l => (stoi16At l 9).getD 0
  | none => ext

/-- The line (after trailing trim) passes every line-level check of the
Validator: starts with `:`, all hex after the colon, minimum length,
declared length, checksum, known record type. -/
def lineOk (l : Line) : Bool :=
  (trimTrailing l).head? == some ':' &&
  ((trimTrailing l).drop 1).all isHexChar &&
  decide (11 ≤ (trimTrailing l).length) &&
  (match parseHexByte (trimTrailing l) 1, stoi16At (trimTrailing l) 3,
      parseHexByte (trimTrailing l) 7 with
   | some bc, some _, some ty =>
     (trimTrailing l).length == 9 + bc * 2 + 2 &&
     validateLineChecksum (trimTrailing l) == some true && decide (ty ≤ 5)
   | _, _, _ => false)

/-- A line the Validator counts as an EOF record (type 0x01, after trim). -/
def isEofLineV (l : Line) : Bool :=
  (trimTrailing l).head? == some ':' &&
  (match parseHexByte (trimTrailing l) 1, stoi16At (trimTrailing l) 3,
      parseHexByte (trimTrailing l) 7 with
   | some _, some _, some ty => ty == 1
   | _, _, _ => false)

/-- Every absolute byte address written by the data records of a line
sequence, in write order, threading the extended-address state exactly
as the Validator does (all lines are processed; the Validator does not
stop at an EOF record). -/
def addrTrace : List Line → Nat → List Nat
  | [], _ => []
  | l :: ls, ext =>
    match parseHexByte (trimTrailing l) 1, stoi16At (trimTrailing l) 3,
        parseHexByte (trimTrailing l) 7 with
    | some bc, some addr, some ty =>
      if ty = 0 then
        ((List.range bc).map (fun i => (absAddr ext addr + i) % U32)) ++ addrTrace ls ext
      else if ty = 4 then addrTrace ls ((stoi16At (trimTrailing l) 9).getD ext)
      else addrTrace ls ext
    | _, _, _ => addrTrace ls ext

/-- The 16-byte boot signature is present in the image as the contiguous
run of addresses `a, a+1, …, a+15` (in `uint32_t` arithmetic), every one
of them present and holding the corresponding signature byte. -/
def sigMatchAt (mem : MemoryImage) (a : Nat) : Prop :=
  ∀ i, i < 16 → mapFind mem ((a + i) % U32) = some (kBootSig.getD i 0)

/-! ### Concrete inputs used by witnesses and counterexamples -/

/-- `:01000000FF00` — one data byte `0xFF` at address 0, valid checksum. -/
def dataLineA : Line := (":01000000FF00").toList

/-- `:00000001FF` — the EOF record. -/
def eofLine : Line := (":00000001FF").toList

/-- `:020000040001F9` — extended linear address record setting `0x0001`. -/
def extLine1 : Line := (":020000040001F9").toList

/-- `:0100000055AA` — one data byte `0x55` at (16-bit) address 0. -/
def dataLineB : Line := (":0100000055AA").toList

/-- A non-empty line that does not start with a colon. -/
def badLine : Line := ("x").toList

/-- Image with bytes only at `0x0000` and `0x07FF`. -/
def exImage1 : MemoryImage := [(0, 255), (2047, 255)]

/-- Image with bytes only at `0x0000` and `0x0800`. -/
def exImage2 : MemoryImage := [(0, 255), (2048, 255)]

/-- Image holding the boot signature at `0x8000` followed by version
bytes `0x06` and `0x68`. -/
def sigImage : MemoryImage :=
  ((List.range 16).map (fun i => (0x8000 + i, kBootSig.getD i 0))) ++
    [(0x8010, 6), (0x8011, 0x68)]

/-- An uppercase hexadecimal digit character. -/
def isUpperHexDigit (c : Char) : Bool :=
  ('0' ≤ c && c ≤ '9') || ('A' ≤ c && c ≤ 'F')

/-! ### Ordered-map helper lemmas -/

theorem mapSortedB_cons_cons {p q : Nat × Nat} {rest : MemoryImage}
    (h : mapSortedB (p :: q :: rest) = true) :
    p.1 < q.1 ∧ mapSortedB (q :: rest) = true := by
  simpa [mapSortedB, Bool.and_eq_true, decide_eq_true_eq] using h

theorem sortedB_head_le {p : Nat × Nat} {rest : MemoryImage}
    (h : mapSortedB (p :: rest) = true) :
    ∀ q ∈ p :: rest, p.1 ≤ q.1 := by
  induction rest generalizing p with
  | nil =>
    intro q hq
    simp only [List.mem_singleton] at hq
    exact hq ▸ le_refl _
  | cons r rs ih =>
    intro q hq
    obtain ⟨hlt, hrest⟩ := mapSortedB_cons_cons h
    rcases List.mem_cons.mp hq with hq1 | hq2
    · exact hq1 ▸ le_refl _
    · exact le_trans (le_of_lt hlt) (ih hrest q hq2)

theorem sortedB_le_getLast :
    ∀ (m : MemoryImage) (hne : m ≠ []), mapSortedB m = true →
      ∀ q ∈ m, q.1 ≤ (m.getLast hne).1 := by
  intro m
  induction m with
  | nil => intro hne; cases hne rfl
  | cons p rest ih =>
    intro hne hs q hq
    cases rest with
    | nil =>
      simp only [List.mem_singleton] at hq
      simp [hq, List.getLast]
    | cons r rs =>
      obtain ⟨hlt, hrest⟩ := mapSortedB_cons_cons hs
      have hgl : ((p :: r :: rs).getLast hne).1 = ((r :: rs).getLast (List.cons_ne_nil r rs)).1 := by
        simp [List.getLast]
      rcases List.mem_cons.mp hq with hq1 | hq2
      · calc q.1 = p.1 := by rw [hq1]
          _ ≤ r.1 := le_of_lt hlt
          _ ≤ ((r :: rs).getLast (List.cons_ne_nil r rs)).1 :=
            ih (List.cons_ne_nil r rs) hrest r (List.mem_cons_self r rs)
          _ = ((p :: r :: rs).getLast hne).1 := hgl.symm
      · calc q.1 ≤ ((r :: rs).getLast (List.cons_ne_nil r rs)).1 :=
            ih (List.cons_ne_nil r rs) hrest q hq2
          _ = ((p :: r :: rs).getLast hne).1 := hgl.symm

/-- C3: for a sorted image and positive page size, the flash-page
computation returns 0 on the empty image and otherwise
`maxAddress / pageSize - minAddress / pageSize + 1` over the smallest
and largest keys present; an image with bytes only at 0x0000 and 0x07FF
yields 1 page of 2048 bytes, and one with bytes at 0x0000 and 0x0800
yields 2. -/
theorem computePagesUsed_spec (mem : MemoryImage) (pageSize : Nat)
    (_hps : 0 < pageSize) (hs : mapSortedB mem = true) :
    (mem = [] → computePagesUsed mem pageSize = 0) ∧
    (mem ≠ [] → ∃ lo hi, lo ∈ mem.map Prod.fst ∧ hi ∈ mem.map Prod.fst ∧
      (∀ k ∈ mem.map Prod.fst, lo ≤ k ∧ k ≤ hi) ∧
      computePagesUsed mem pageSize = hi / pageSize - lo / pageSize + 1) ∧
    computePagesUsed exImage1 2048 = 1 ∧ computePagesUsed exImage2 2048 = 2 := by
  refine ⟨fun he => by simp [he, computePagesUsed], fun hne => ?_, by decide, by decide⟩
  match mem, hne with
  | p :: rest, _ =>
    refine ⟨p.1, ((p :: rest).getLast (List.cons_ne_nil p rest)).1, ?_, ?_, ?_, ?_⟩
    · exact List.mem_map_of_mem Prod.fst (List.mem_cons_self p rest)
    · exact List.mem_map_of_mem Prod.fst (List.getLast_mem (List.cons_ne_nil p rest))
    · intro k hk
      obtain ⟨q, hqmem, hqk⟩ := List.mem_map.mp hk
      subst hqk
      exact ⟨sortedB_head_le hs q hqmem,
        sortedB_le_getLast (p :: rest) (List.cons_ne_nil p rest) hs q hqmem⟩
    · rfl

/-- Witness for C3 at the concrete image `exImage1` and page size 2048. -/
theorem computePagesUsed_spec_witness :
    (exImage1 = ([] : MemoryImage) → computePagesUsed exImage1 2048 = 0) ∧
    (exImage1 ≠ [] → ∃ lo hi, lo ∈ exImage1.map Prod.fst ∧ hi ∈ exImage1.map Prod.fst ∧
      (∀ k ∈ exImage1.map Prod.fst, lo ≤ k ∧ k ≤ hi) ∧
      computePagesUsed exImage1 2048 = hi / 2048 - lo / 2048 + 1) ∧
    computePagesUsed exImage1 2048 = 1 ∧ computePagesUsed exImage2 2048 = 2 :=
  computePagesUsed_spec exImage1 2048 (by decide) (by decide)

/-- C9: whenever `extractBootloaderVersionFromHex` reports failure, the
`major`/`minor` out-parameters keep their entry values. -/
theorem extractBootloaderVersion_frame_on_failure
    (lines : List Line) (majorIn minorIn : Nat)
    (h : (extractBootloaderVersionFromHex lines majorIn minorIn).1 = false) :
    extractBootloaderVersionFromHex lines majorIn minorIn = (false, majorIn, minorIn) := by
  unfold extractBootloaderVersionFromHex at h ⊢
  split
  · rfl
  · split
    · rfl
    · split
      · simp_all
      · rfl
      · rfl

/-- Witness for C9 at the empty file (the strict parse fails: no EOF). -/
theorem extractBootloaderVersion_frame_witness :
    extractBootloaderVersionFromHex [] 7 9 = (false, 7, 9) :=
  extractBootloaderVersion_frame_on_failure [] 7 9 (by decide)

theorem validateLines_success_err :
    ∀ (lines : List Line) (n : Nat) (eof : Bool) (ext : Nat) (written : List Nat)
      (err out : String),
      validateLines lines n eof ext written err = some (true, out) → out = err := by
  intro lines
  induction lines with
  | nil =>
    intro n eof ext written err out h
    by_cases he : eof
    · simp only [validateLines, he, if_true, Option.some.injEq, Prod.mk.injEq, true_and] at h
      exact h.symm
    · simp [validateLines, he] at h
  | cons l ls ih =>
    intro n eof ext written err out h
    simp only [validateLines] at h
    cases hv : validateLine (trimTrailing l) (n + 1) eof ext written with
    | fail msg => rw [hv] at h; simp at h
    | next eof' ext' written' => rw [hv] at h; exact ih (n + 1) eof' ext' written' err out h
    | thrown => rw [hv] at h; simp at h

/-- C10: whenever `validateHexFile` returns `true`, the `errorOut`
out-parameter keeps its entry value. -/
theorem validateHexFile_frame_on_success (lines : List Line) (errIn out : String)
    (h : validateHexFile lines errIn = some (true, out)) :
    validateHexFile lines errIn = some (true, errIn) := by
  have he := validateLines_success_err lines 0 false 0 [] errIn out h
  rw [validateHexFile] at h ⊢
  rw [h, he]

/-- Witness for C10 at a one-record (EOF only) valid file. -/
theorem validateHexFile_frame_witness :
    validateHexFile [eofLine] "prior error text" = some (true, "prior error text") :=
  validateHexFile_frame_on_success [eofLine] "prior error text" "prior error text" (by decide)

/-- C1 counterexample: the file consisting of the single data record
`:01000000FF00` contains no EOF record, yet `calculateFlashPagesUsed`
succeeds and returns the page count 1 instead of failing. -/
theorem calculateFlashPagesUsed_missing_eof_cex :
    (∀ l ∈ [dataLineA], isEofRecordLine l = false) ∧
    calculateFlashPagesUsed [dataLineA] 2048 = some 1 := by decide

theorem parseGoS_isSome_eq_lenientOk :
    ∀ (lines : List Line) (ext : Nat) (m : MemoryImage),
      (parseGoS lines ext m).isSome = lenientOk lines := by
  intro lines
  induction lines with
  | nil => intro ext m; rfl
  | cons l ls ih =>
    intro ext m
    by_cases hc : l.head? = some ':'
    · simp only [parseGoS, lenientOk, hc, ne_eq, not_true_eq_false, if_false]
      rcases h1 : parseHexByte l 1 with _ | bc <;>
        rcases h3 : stoi16At l 3 with _ | addr <;>
        rcases h7 : parseHexByte l 7 with _ | ty <;>
        simp only [h1, h3, h7] <;> try rfl
      by_cases hty0 : ty = 0
      · rcases hpl : readPayload l bc with _ | payload <;> simp [hty0, hpl, ih]
      · by_cases hty4 : ty = 4
        · rcases h9 : stoi16At l 9 with _ | e <;> simp [hty0, hty4, h9, ih]
        · by_cases hty1 : ty = 1
          · simp [hty0, hty4, hty1]
          · simp [hty0, hty4, hty1, ih]
    · simp only [parseGoS, lenientOk, ne_eq, hc, not_false_eq_true, if_true]
      exact ih ext m

/-- C1 amended: `calculateFlashPagesUsed` succeeds exactly when every
line processed by the lenient parser (up to the first EOF record)
decodes without an exception; the presence or absence of an EOF record
does not affect success — a missing EOF does not make it fail. -/
theorem calculateFlashPagesUsed_isSome_iff (lines : List Line) (flashPageSize : Nat) :
    (calculateFlashPagesUsed lines flashPageSize).isSome = lenientOk lines := by
  rw [← parseGoS_isSome_eq_lenientOk lines 0 []]
  unfold calculateFlashPagesUsed parseIntelHex
  cases parseGoS lines 0 [] <;> rfl

/-- C8 counterexample: given the file `["x", ":00000001FF"]`, the
builder behind `extractBootloaderVersionFromHex` fails on the non-colon
line instead of skipping it (skipping would have produced `some []` via
the EOF record), while the builder behind `calculateFlashPagesUsed`
does skip it. -/
theorem nonColonLine_cex :
    parseIntelHexToMap [badLine, eofLine] = none ∧
    parseIntelHex [badLine, eofLine] = some [] := by decide

/-- C8 amended: the calculate-pages builder silently skips any line not
starting with `':'`; the extract-version builder skips only lines that
are empty after trailing trim and fails on any non-empty line whose
first character is not `':'`. -/
theorem nonColon_skip_behavior :
    (∀ (l : Line) (ls : List Line) (ext : Nat) (m : MemoryImage),
      l.head? ≠ some ':' → parseGoS (l :: ls) ext m = parseGoS ls ext m) ∧
    (∀ (l : Line) (ls : List Line) (ext : Nat) (m : MemoryImage),
      rtrim l = [] → parseMapGo (l :: ls) ext m = parseMapGo ls ext m) ∧
    (∀ (l : Line) (ls : List Line) (ext : Nat) (m : MemoryImage),
      rtrim l ≠ [] → (rtrim l).head? ≠ some ':' → parseMapGo (l :: ls) ext m = none) := by
  refine ⟨?_, ?_, ?_⟩
  · intro l ls ext m hcol
    simp [parseGoS, hcol]
  · intro l ls ext m hemp
    simp [parseMapGo, hemp]
  · intro l ls ext m hne hcol
    rcases h : rtrim l with _ | ⟨c, cs⟩
    · exact absurd h hne
    · rw [h] at hcol
      have hc : ¬(c = ':') := by simpa using hcol
      simp [parseMapGo, h, hc]

/-- Witness for the amended C8 at concrete lines. -/
theorem nonColon_skip_behavior_witness :
    parseGoS [badLine, eofLine] 0 [] = parseGoS [eofLine] 0 [] ∧
    parseMapGo [badLine] 0 [] = none :=
  ⟨nonColon_skip_behavior.1 badLine [eofLine] 0 [] (by decide),
   nonColon_skip_behavior.2.2 badLine [] 0 [] (by decide) (by decide)⟩

/-! ### Checksum characterization (C4) -/

set_option maxRecDepth 8000 in
set_option maxHeartbeats 1000000 in
theorem byteOfChars_hex2 : ∀ b, b < 256 → byteOfChars (hex2 b) = some b := by decide

theorem sumPairs_hexConcat :
    ∀ (bs : List Nat) (s : Nat), (∀ b ∈ bs, b < 256) → s < 256 →
      sumPairs (hexConcat bs) s = some ((s + bs.sum) % 256) := by
  intro bs
  induction bs with
  | nil =>
    intro s _ hs
    rw [show hexConcat [] = [] from rfl, show sumPairs [] s = some s from rfl]
    exact congrArg some (by simp [Nat.mod_eq_of_lt hs])
  | cons b bs ih =>
    intro s hb hs
    have hblt : b < 256 := hb b (List.mem_cons_self b bs)
    have hstep : hexConcat (b :: bs) = hexCharU (b / 16) :: hexCharU (b % 16) :: hexConcat bs := by
      simp [hexConcat, hex2]
    have hbyte : byteOfChars [hexCharU (b / 16), hexCharU (b % 16)] = some b :=
      byteOfChars_hex2 b hblt
    rw [hstep]
    have hun : sumPairs (hexCharU (b / 16) :: hexCharU (b % 16) :: hexConcat bs) s =
        match byteOfChars [hexCharU (b / 16), hexCharU (b % 16)] with
        | some v => sumPairs (hexConcat bs) ((s + v) % 256)
        | none => none := rfl
    rw [hun, hbyte]
    show sumPairs (hexConcat bs) ((s + b) % 256) = some ((s + (b :: bs).sum) % 256)
    rw [ih ((s + b) % 256) (fun x hx => hb x (List.mem_cons_of_mem b hx))
        (Nat.mod_lt _ (by omega))]
    congr 1
    rw [Nat.mod_add_mod, List.sum_cons]
    congr 1
    omega

/-- C4: on a record line assembled from its fields, the checksum check
accepts exactly when the 8-bit sum of the byte count, the two address
bytes, the record type, every payload byte and the checksum byte itself
is zero. -/
theorem validateLineChecksum_spec (bc addr ty ck : Nat) (payload : List Nat)
    (hbc : bc < 256) (haddr : addr < 65536) (hty : ty < 256) (hck : ck < 256)
    (hp : ∀ b ∈ payload, b < 256) :
    validateLineChecksum (encodeRecord bc addr ty payload ck) =
      some ((bc + addr / 256 + addr % 256 + ty + payload.sum + ck) % 256 == 0) := by
  unfold validateLineChecksum encodeRecord
  simp only [List.drop_succ_cons, List.drop_zero]
  rw [sumPairs_hexConcat ([bc, addr / 256, addr % 256, ty] ++ payload ++ [ck]) 0 ?_ (by omega)]
  · have hsum : ([bc, addr / 256, addr % 256, ty] ++ payload ++ [ck]).sum =
        bc + addr / 256 + addr % 256 + ty + payload.sum + ck := by
      simp [List.sum_append]
      omega
    simp [hsum]
    omega
  · intro b hb
    simp only [List.mem_append, List.mem_cons, List.mem_singleton, List.not_mem_nil, or_false] at hb
    rcases hb with ((hb | hb | hb | hb) | hb) | hb
    · subst hb; omega
    · subst hb; omega
    · subst hb; omega
    · subst hb; omega
    · exact hp b hb
    · subst hb; omega

/-- Witness for C4 at a concrete record (`:01000000FF00`-shaped). -/
theorem validateLineChecksum_spec_witness :
    validateLineChecksum (encodeRecord 1 0 0 [255] 0) =
      some ((1 + 0 / 256 + 0 % 256 + 0 + [255].sum + 0) % 256 == 0) :=
  validateLineChecksum_spec 1 0 0 0 [255] (by decide) (by decide) (by decide) (by decide)
    (by decide)

/-! ### Uppercase hexadecimal rendering (C6) -/

theorem natToHexDigitsAux_foldl :
    ∀ (fuel n : Nat), n ≤ fuel →
      (natToHexDigitsAux fuel n).foldl (fun a d => a * 16 + d) 0 = n := by
  intro fuel
  induction fuel with
  | zero =>
    intro n h
    have : n = 0 := Nat.le_zero.mp h
    simp [this, natToHexDigitsAux]
  | succ fuel ih =>
    intro n h
    by_cases h0 : n = 0
    · simp [h0, natToHexDigitsAux]
    · have hdiv : n / 16 ≤ fuel := by
        have h1 : n / 16 < n := Nat.div_lt_self (Nat.pos_of_ne_zero h0) (by omega)
        omega
      simp only [natToHexDigitsAux, h0, if_false, List.foldl_append, ih (n / 16) hdiv,
        List.foldl_cons, List.foldl_nil]
      omega

theorem natToHexDigitsAux_lt :
    ∀ (fuel n : Nat), ∀ d ∈ natToHexDigitsAux fuel n, d < 16 := by
  intro fuel
  induction fuel with
  | zero => intro n d hd; simp [natToHexDigitsAux] at hd
  | succ fuel ih =>
    intro n d hd
    by_cases h0 : n = 0
    · simp [h0, natToHexDigitsAux] at hd
    · simp only [natToHexDigitsAux, h0, if_false, List.mem_append, List.mem_singleton] at hd
      rcases hd with hd | hd
      · exact ih (n / 16) d hd
      · subst hd; exact Nat.mod_lt _ (by omega)

theorem hexDigitVal_hexCharU : ∀ d, d < 16 → hexDigitVal (hexCharU d) = some d := by decide

theorem isUpperHexDigit_hexCharU : ∀ d, d < 16 → isUpperHexDigit (hexCharU d) = true := by
  decide

theorem hexDigitsVal_map_hexCharU :
    ∀ (ds : List Nat), (∀ d ∈ ds, d < 16) → ∀ acc : Nat,
      (ds.map hexCharU).foldl (fun a c => a * 16 + (hexDigitVal c).getD 0) acc =
        ds.foldl (fun a d => a * 16 + d) acc := by
  intro ds
  induction ds with
  | nil => intro _ acc; rfl
  | cons d ds ih =>
    intro h acc
    simp only [List.map_cons, List.foldl_cons,
      hexDigitVal_hexCharU d (h d (List.mem_cons_self d ds)), Option.getD_some]
    exact ih (fun x hx => h x (List.mem_cons_of_mem d hx)) _

/-- The rendering of `toUpperHex` consists of uppercase hex digits and
parses back to the rendered number. -/
theorem toUpperHex_renders :
    ∀ a : Nat, (toUpperHex a).data ≠ [] ∧
      (toUpperHex a).data.all isUpperHexDigit = true ∧
      hexDigitsVal ((toUpperHex a).data) = a := by
  intro a
  by_cases h0 : a = 0
  · subst h0; refine ⟨by decide, by decide, by decide⟩
  · have hdata : (toUpperHex a).data = (natToHexDigits a).map hexCharU := by
      rw [toUpperHex, if_neg h0]
    refine ⟨?_, ?_, ?_⟩
    · rw [hdata]
      have hne : natToHexDigits a ≠ [] := by
        rcases a with _ | a'
        · exact absurd rfl h0
        · simp [natToHexDigits, natToHexDigitsAux]
      intro hcon
      exact hne (List.map_eq_nil_iff.mp hcon)
    · rw [hdata, List.all_eq_true]
      intro c hc
      obtain ⟨d, hd, hdc⟩ := List.mem_map.mp hc
      subst hdc
      exact isUpperHexDigit_hexCharU d (natToHexDigitsAux_lt a a d hd)
    · rw [hdata]
      unfold hexDigitsVal
      rw [hexDigitsVal_map_hexCharU (natToHexDigits a) (natToHexDigitsAux_lt a a) 0]
      exact natToHexDigitsAux_foldl a a (le_refl a)

/-- C6: a data record one of whose byte addresses was already written
is rejected with an overlap error carrying the first duplicated address
rendered in uppercase hexadecimal (which parses back to the address),
regardless of the byte values; concretely, a file writing address 0
twice with the identical byte 0xFF is rejected with
`Overlapping data at address 0x0`. -/
theorem validate_overlap_spec :
    (∀ (l : Line) (ls : List Line) (n : Nat) (eof : Bool) (ext : Nat) (written : List Nat)
       (err : String) (bc addr a : Nat),
      (trimTrailing l).head? = some ':' →
      ((trimTrailing l).drop 1).all isHexChar = true →
      ¬(trimTrailing l).length < 11 →
      parseHexByte (trimTrailing l) 1 = some bc →
      stoi16At (trimTrailing l) 3 = some addr →
      parseHexByte (trimTrailing l) 7 = some 0 →
      (trimTrailing l).length = 9 + bc * 2 + 2 →
      validateLineChecksum (trimTrailing l) = some true →
      addrLoop written (absAddr ext addr) bc = Except.error a →
      validateLines (l :: ls) n eof ext written err =
        some (false, "Overlapping data at address 0x" ++ toUpperHex a)) ∧
    (∀ a : Nat, (toUpperHex a).data ≠ [] ∧
      (toUpperHex a).data.all isUpperHexDigit = true ∧
      hexDigitsVal ((toUpperHex a).data) = a) ∧
    validateHexFile [dataLineA, dataLineA] "" =
      some (false, "Overlapping data at address 0x0") := by
  refine ⟨?_, toUpperHex_renders, by decide⟩
  intro l ls n eof ext written err bc addr a h1 h2 h3 h4 h5 h6 h7 h8 h9
  simp only [validateLines]
  have hstep : validateLine (trimTrailing l) (n + 1) eof ext written =
      VStep.fail ("Overlapping data at address 0x" ++ toUpperHex a) := by
    unfold validateLine
    simp [h1, h2, h3, h4, h5, h6, h7, h8, h9]
    have hall : ¬∃ x ∈ (trimTrailing l).tail, isHexChar x = false := by
      rw [← List.drop_one]
      rintro ⟨x, hx, hfx⟩
      have hxt := List.all_eq_true.mp h2 x hx
      simp_all
    have hlen : ¬(9 + bc * 2 + 2 < 11) := by omega
    rw [if_neg hall, if_neg hlen]
  rw [hstep]

/-- Witness for C6: a data record re-writing the already-written
address 0 makes the Validator fail with the overlap message. -/
theorem validate_overlap_spec_witness :
    validateLines [dataLineA] 0 false 0 [0] "" =
      some (false, "Overlapping data at address 0x" ++ toUpperHex 0) ∧
    ((toUpperHex 43981).data ≠ [] ∧
      (toUpperHex 43981).data.all isUpperHexDigit = true ∧
      hexDigitsVal ((toUpperHex 43981).data) = 43981) :=
  ⟨validate_overlap_spec.1 dataLineA [] 0 false 0 [0] "" 1 0 0 (by rfl) (by rfl)
      (by decide) (by rfl) (by rfl) (by rfl) (by rfl) (by rfl) (by rfl),
   validate_overlap_spec.2.1 43981⟩

/-! ### Decoding success under the line-level checks (C7) -/

theorem hexChar_not_space {c : Char} (hc : isHexChar c = true) : isSpaceChar c = false := by
  cases hsp : isSpaceChar c
  · rfl
  · exfalso
    have hs : ((((c = ' ' ∨ c = '\t') ∨ c = '\n') ∨ c = '\x0b') ∨ c = '\x0c') ∨ c = '\r' := by
      simpa [isSpaceChar] using hsp
    rcases hs with ((((rfl | rfl) | rfl) | rfl) | rfl) | rfl <;> exact absurd hc (by decide)

theorem hexChar_ne {c : Char} (hc : isHexChar c = true) :
    c ≠ '-' ∧ c ≠ '+' ∧ c ≠ 'x' ∧ c ≠ 'X' := by
  refine ⟨?_, ?_, ?_, ?_⟩ <;> rintro rfl <;> exact absurd hc (by decide)

theorem stoiHex_isSome_of_hex (c : Char) (rest : List Char) (hc : isHexChar c = true)
    (h2 : ∀ d, rest.head? = some d → isHexChar d = true) :
    (stoiHex (c :: rest)).isSome = true := by
  obtain ⟨hm, hp, _, _⟩ := hexChar_ne hc
  have hsp := hexChar_not_space hc
  rcases rest with _ | ⟨d, rest'⟩
  · simp [stoiHex, List.dropWhile_cons, hsp, hm, hp, hexRun, hc]
  · have hd := h2 d rfl
    obtain ⟨_, _, hdx, hdX⟩ := hexChar_ne hd
    simp [stoiHex, List.dropWhile_cons, hsp, hm, hp, hdx, hdX, hexRun, hc]

theorem stoi16At_isSome (t : Line) (pos : Nat) (hpos1 : 1 ≤ pos) (hlt : pos < t.length)
    (hall : (t.drop 1).all isHexChar = true) :
    (stoi16At t pos).isSome = true := by
  have hsub : substrQ t pos 4 = some ((t.drop pos).take 4) := by
    unfold substrQ
    rw [if_pos (le_of_lt hlt)]
  have hmem : ∀ x ∈ t.drop pos, isHexChar x = true := by
    intro x hx
    refine List.all_eq_true.mp hall x ?_
    have hdd : t.drop pos = (t.drop 1).drop (pos - 1) := by
      rw [List.drop_drop]
      congr 1
      omega
    rw [hdd] at hx
    exact List.mem_of_mem_drop hx
  rcases hd : t.drop pos with _ | ⟨c, cs⟩
  · exfalso
    have hlen := congrArg List.length hd
    simp [List.length_drop] at hlen
    omega
  · rw [hd] at hsub hmem
    unfold stoi16At
    rw [hsub]
    have hss := stoiHex_isSome_of_hex c (cs.take 3)
      (hmem c (List.mem_cons_self c cs)) ?_
    · show ((stoiHex ((c :: cs).take 4)).map (fun i => (i % 65536).toNat)).isSome = true
      rw [show (c :: cs).take 4 = c :: cs.take 3 from rfl]
      cases hs : stoiHex (c :: cs.take 3)
      · rw [hs] at hss
        simp at hss
      · simp
    · intro d hdd
      rcases cs with _ | ⟨d2, cs2⟩
      · simp at hdd
      · have hdd2 : d2 = d := by
          simpa using hdd
        subst hdd2
        exact hmem d2 (List.mem_cons_of_mem c (List.mem_cons_self d2 cs2))

theorem lineOk_decomp {l : Line} (h : lineOk l = true) :
    ∃ bc addr ty, (trimTrailing l).head? = some ':' ∧
      (∀ x ∈ (trimTrailing l).drop 1, isHexChar x = true) ∧
      11 ≤ (trimTrailing l).length ∧
      parseHexByte (trimTrailing l) 1 = some bc ∧
      stoi16At (trimTrailing l) 3 = some addr ∧
      parseHexByte (trimTrailing l) 7 = some ty ∧
      (trimTrailing l).length = 9 + bc * 2 + 2 ∧
      validateLineChecksum (trimTrailing l) = some true ∧
      ty ≤ 5 := by
  unfold lineOk at h
  rw [Bool.and_eq_true, Bool.and_eq_true, Bool.and_eq_true] at h
  obtain ⟨⟨⟨hA, hB⟩, hC⟩, hM⟩ := h
  rcases h1 : parseHexByte (trimTrailing l) 1 with _ | bc <;>
    rcases h3 : stoi16At (trimTrailing l) 3 with _ | addr <;>
    rcases h7 : parseHexByte (trimTrailing l) 7 with _ | ty <;>
    rw [h1, h3, h7] at hM <;>
    simp at hM
  obtain ⟨⟨hlen, hck⟩, hty5⟩ := hM
  exact ⟨bc, addr, ty, by simpa using hA, List.all_eq_true.mp hB, by simpa using hC,
    rfl, rfl, rfl, hlen, hck, hty5⟩

/-- Full evaluation of the Validator loop body on a line passing every
line-level check, by record type. -/
theorem validateLine_eval (t : Line) (n : Nat) (eof : Bool) (ext : Nat) (w : List Nat)
    (bc addr ty e : Nat)
    (hcol : t.head? = some ':')
    (hhexs : ∀ x ∈ t.drop 1, isHexChar x = true)
    (hlen11 : 11 ≤ t.length)
    (hbc : parseHexByte t 1 = some bc)
    (haddr : stoi16At t 3 = some addr)
    (hty : parseHexByte t 7 = some ty)
    (hlen : t.length = 9 + bc * 2 + 2)
    (hck : validateLineChecksum t = some true)
    (hty5 : ty ≤ 5)
    (h9 : stoi16At t 9 = some e) :
    validateLine t n eof ext w =
      if ty = 1 then
        (if eof then VStep.fail "Multiple EOF records detected." else VStep.next true ext w)
      else if ty = 0 then
        (match addrLoop w (absAddr ext addr) bc with
         | Except.error a => VStep.fail ("Overlapping data at address 0x" ++ toUpperHex a)
         | Except.ok w' => VStep.next eof ext w')
      else if ty = 4 then VStep.next eof e w
      else VStep.next eof ext w := by
  have hhexb : (t.drop 1).all isHexChar = true := List.all_eq_true.mpr hhexs
  have h5 : ¬5 < ty := by omega
  have hl : ¬t.length < 11 := by omega
  unfold validateLine
  simp [hcol, hhexb, hl, hbc, haddr, hty, hlen, hck, h5, h9]
  have hall : ¬∃ x ∈ t.tail, isHexChar x = false := by
    rw [← List.drop_one]
    rintro ⟨x, hx, hfx⟩
    have hxt := hhexs x hx
    simp_all
  have hlen2 : ¬(9 + bc * 2 + 2 < 11) := by omega
  rw [if_neg hall, if_neg hlen2]

theorem addrLoop_ok :
    ∀ (k : Nat) (w : List Nat) (a : Nat),
      (w ++ (List.range k).map (fun i => (a + i) % U32)).Nodup →
      ∃ w', addrLoop w a k = Except.ok w' ∧
        List.Perm w' (((List.range k).map (fun i => (a + i) % U32)) ++ w) := by
  intro k
  induction k with
  | zero =>
    intro w a _
    exact ⟨w, rfl, by simp⟩
  | succ k ih =>
    intro w a hnd
    have hmap : (List.range (k + 1)).map (fun i => (a + i) % U32) =
        (a % U32) :: (List.range k).map (fun i => (a + 1 + i) % U32) := by
      rw [List.range_succ_eq_map, List.map_cons, List.map_map]
      refine congrArg₂ _ (by simp) ?_
      refine List.map_congr_left ?_
      intro i _
      simp [Function.comp]
      congr 1
      omega
    rw [hmap] at hnd
    have hsplit := List.nodup_append.mp hnd
    have hnotin : (a % U32) ∉ w := by
      intro hin
      exact hsplit.2.2 hin (List.mem_cons_self _ _)
    have hstep : addrLoop w a (k + 1) =
        addrLoop ((a % U32) :: w) (a + 1) k := by
      rw [show addrLoop w a (k + 1) =
          (if (a % U32) ∈ w then Except.error (a % U32)
           else addrLoop ((a % U32) :: w) (a + 1) k) from rfl,
        if_neg hnotin]
    have hnd' : (((a % U32) :: w) ++ (List.range k).map (fun i => (a + 1 + i) % U32)).Nodup := by
      have hperm : List.Perm
          (w ++ (a % U32) :: (List.range k).map (fun i => (a + 1 + i) % U32))
          (((a % U32) :: w) ++ (List.range k).map (fun i => (a + 1 + i) % U32)) := by
        refine (List.perm_middle).trans ?_
        simp
      exact hperm.nodup hnd
    obtain ⟨w', hw', hpw⟩ := ih ((a % U32) :: w) (a + 1) hnd'
    refine ⟨w', by rw [hstep]; exact hw', ?_⟩
    rw [hmap]
    refine hpw.trans ?_
    have hmid : List.Perm
        ((List.range k).map (fun i => (a + 1 + i) % U32) ++ (a % U32) :: w)
        ((a % U32) :: ((List.range k).map (fun i => (a + 1 + i) % U32) ++ w)) :=
      List.perm_middle
    exact hmid.trans (by simp)

theorem validateLine_next_eof {l : Line} {n : Nat} {eof : Bool} {ext : Nat} {w : List Nat}
    {eof' : Bool} {ext' : Nat} {w' : List Nat}
    (h : validateLine (trimTrailing l) n eof ext w = VStep.next eof' ext' w') :
    (isEofLineV l = true → eof = false ∧ eof' = true) ∧
    (isEofLineV l = false → eof' = eof) := by
  unfold validateLine at h
  by_cases hcol : (trimTrailing l).head? = some ':'
  case neg =>
    rw [if_pos (by simp [hcol])] at h
    exact absurd h (by simp)
  rw [if_neg (by simp [hcol])] at h
  by_cases hhex : (!((trimTrailing l).drop 1).all isHexChar) = true
  · rw [if_pos hhex] at h
    exact absurd h (by simp)
  rw [if_neg hhex] at h
  by_cases hlen : (trimTrailing l).length < 11
  · rw [if_pos hlen] at h
    exact absurd h (by simp)
  rw [if_neg hlen] at h
  rcases h1 : parseHexByte (trimTrailing l) 1 with _ | bc <;> rw [h1] at h
  · exact absurd h (by simp)
  rcases h3 : stoi16At (trimTrailing l) 3 with _ | addr <;> rw [h3] at h
  · exact absurd h (by simp)
  rcases h7 : parseHexByte (trimTrailing l) 7 with _ | ty <;> rw [h7] at h
  · exact absurd h (by simp)
  dsimp only [] at h
  have hEof : isEofLineV l = (ty == 1) := by
    unfold isEofLineV
    rw [h1, h3, h7]
    simp [hcol]
  by_cases hL : (trimTrailing l).length ≠ 9 + bc * 2 + 2
  · rw [if_pos hL] at h
    exact absurd h (by simp)
  rw [if_neg hL] at h
  rcases hCk : validateLineChecksum (trimTrailing l) with _ | b <;> rw [hCk] at h
  · exact absurd h (by simp)
  cases b
  · exact absurd h (by simp)
  by_cases h5 : 5 < ty
  · rw [if_pos h5] at h
    exact absurd h (by simp)
  rw [if_neg h5] at h
  by_cases hty1 : ty = 1
  · rw [if_pos hty1] at h
    cases eof
    · rw [if_neg (by simp)] at h
      simp only [VStep.next.injEq] at h
      refine ⟨fun _ => ⟨rfl, h.1.symm⟩, fun hfalse => ?_⟩
      rw [hEof, hty1] at hfalse
      simp at hfalse
    · rw [if_pos rfl] at h
      exact absurd h (by simp)
  · rw [if_neg hty1] at h
    have hne : isEofLineV l = false := by
      rw [hEof]
      simpa using hty1
    refine ⟨fun htrue => absurd htrue (by simp [hne]), fun _ => ?_⟩
    by_cases hty0 : ty = 0
    · rw [if_pos hty0] at h
      rcases hal : addrLoop w (absAddr ext addr) bc with a | w2 <;> rw [hal] at h
      · exact absurd h (by simp)
      · simp only [VStep.next.injEq] at h
        exact h.1.symm
    · rw [if_neg hty0] at h
      by_cases hty4 : ty = 4
      · rw [if_pos hty4] at h
        rcases h9 : stoi16At (trimTrailing l) 9 with _ | e <;> rw [h9] at h
        · exact absurd h (by simp)
        · simp only [VStep.next.injEq] at h
          exact h.1.symm
      · rw [if_neg hty4] at h
        simp only [VStep.next.injEq] at h
        exact h.1.symm

theorem validateLines_missing_eof_aux :
    ∀ (lines : List Line) (n : Nat) (ext : Nat) (w : List Nat) (err : String),
      (∀ l ∈ lines, lineOk l = true) →
      (∀ l ∈ lines, isEofLineV l = false) →
      (w ++ addrTrace lines ext).Nodup →
      validateLines lines n false ext w err = some (false, "Missing EOF record.") := by
  intro lines
  induction lines with
  | nil => intro n ext w err _ _ _; rfl
  | cons l ls ih =>
    intro n ext w err hok hnoe hnd
    obtain ⟨bc, addr, ty, hcol, hhexs, hlen11, hbc, haddr, hty, hlen, hck, hty5⟩ :=
      lineOk_decomp (hok l (List.mem_cons_self l ls))
    have h9s : (stoi16At (trimTrailing l) 9).isSome = true :=
      stoi16At_isSome (trimTrailing l) 9 (by omega) (by omega) (List.all_eq_true.mpr hhexs)
    obtain ⟨e, h9⟩ := Option.isSome_iff_exists.mp h9s
    have htyne1 : ty ≠ 1 := by
      have hnoe1 := hnoe l (List.mem_cons_self l ls)
      have hE : isEofLineV l = (ty == 1) := by
        unfold isEofLineV
        rw [hbc, haddr, hty]
        simp [hcol]
      rw [hE] at hnoe1
      simpa using hnoe1
    have htr : addrTrace (l :: ls) ext =
        (if ty = 0 then
          ((List.range bc).map (fun i => (absAddr ext addr + i) % U32)) ++ addrTrace ls ext
         else if ty = 4 then addrTrace ls ((stoi16At (trimTrailing l) 9).getD ext)
         else addrTrace ls ext) := by
      simp only [addrTrace, hbc, haddr, hty]
    simp only [validateLines]
    rw [validateLine_eval (trimTrailing l) (n + 1) false ext w bc addr ty e hcol hhexs hlen11
      hbc haddr hty hlen hck hty5 h9]
    rw [if_neg htyne1]
    by_cases hty0 : ty = 0
    · rw [if_pos hty0]
      rw [htr, if_pos hty0] at hnd
      rw [← List.append_assoc] at hnd
      have hndA : (w ++ (List.range bc).map (fun i => (absAddr ext addr + i) % U32)).Nodup :=
        List.Nodup.of_append_left hnd
      obtain ⟨w2, hw2, hpw2⟩ := addrLoop_ok bc w (absAddr ext addr) hndA
      rw [hw2]
      show validateLines ls (n + 1) false ext w2 err = some (false, "Missing EOF record.")
      refine ih (n + 1) ext w2 err (fun x hx => hok x (List.mem_cons_of_mem l hx))
        (fun x hx => hnoe x (List.mem_cons_of_mem l hx)) ?_
      have hperm : List.Perm
          (w2 ++ addrTrace ls ext)
          ((w ++ (List.range bc).map (fun i => (absAddr ext addr + i) % U32)) ++ addrTrace ls ext) :=
        List.Perm.append_right _ (hpw2.trans List.perm_append_comm)
      exact (hperm.nodup_iff).mpr hnd
    · rw [if_neg hty0]
      by_cases hty4 : ty = 4
      · rw [if_pos hty4]
        show validateLines ls (n + 1) false e w err = some (false, "Missing EOF record.")
        refine ih (n + 1) e w err (fun x hx => hok x (List.mem_cons_of_mem l hx))
          (fun x hx => hnoe x (List.mem_cons_of_mem l hx)) ?_
        rw [htr, if_neg hty0, if_pos hty4, h9] at hnd
        simpa using hnd
      · rw [if_neg hty4]
        show validateLines ls (n + 1) false ext w err = some (false, "Missing EOF record.")
        refine ih (n + 1) ext w err (fun x hx => hok x (List.mem_cons_of_mem l hx))
          (fun x hx => hnoe x (List.mem_cons_of_mem l hx)) ?_
        rw [htr, if_neg hty0, if_neg hty4] at hnd
        exact hnd

theorem validateLines_second_eof :
    ∀ (l : Line) (ls : List Line) (n : Nat) (ext : Nat) (w : List Nat) (err : String),
      lineOk l = true → isEofLineV l = true →
      validateLines (l :: ls) n true ext w err =
        some (false, "Multiple EOF records detected.") := by
  intro l ls n ext w err hok heof
  obtain ⟨bc, addr, ty, hcol, hhexs, hlen11, hbc, haddr, hty, hlen, hck, hty5⟩ :=
    lineOk_decomp hok
  have h9s : (stoi16At (trimTrailing l) 9).isSome = true :=
    stoi16At_isSome (trimTrailing l) 9 (by omega) (by omega) (List.all_eq_true.mpr hhexs)
  obtain ⟨e, h9⟩ := Option.isSome_iff_exists.mp h9s
  have hty1 : ty = 1 := by
    have hE : isEofLineV l = (ty == 1) := by
      unfold isEofLineV
      rw [hbc, haddr, hty]
      simp [hcol]
    rw [hE] at heof
    simpa using heof
  simp only [validateLines]
  rw [validateLine_eval (trimTrailing l) (n + 1) true ext w bc addr ty e hcol hhexs hlen11
    hbc haddr hty hlen hck hty5 h9]
  rw [if_pos hty1, if_pos rfl]

theorem validateLines_true_eofCount :
    ∀ (lines : List Line) (n : Nat) (eof : Bool) (ext : Nat) (w : List Nat) (err r : String),
      validateLines lines n eof ext w err = some (true, r) →
      lines.countP isEofLineV + (if eof then 1 else 0) = 1 := by
  intro lines
  induction lines with
  | nil =>
    intro n eof ext w err r h
    cases eof
    · simp [validateLines] at h
    · simp
  | cons l ls ih =>
    intro n eof ext w err r h
    simp only [validateLines] at h
    cases hv : validateLine (trimTrailing l) (n + 1) eof ext w with
    | fail msg => rw [hv] at h; simp at h
    | thrown => rw [hv] at h; simp at h
    | next eof' ext' w' =>
      rw [hv] at h
      have hrec := ih (n + 1) eof' ext' w' err r h
      obtain ⟨hT, hF⟩ := validateLine_next_eof hv
      rw [List.countP_cons]
      by_cases he : isEofLineV l = true
      · obtain ⟨hf0, ht1⟩ := hT he
        subst hf0
        rw [ht1] at hrec
        simp [he] at hrec ⊢
        exact hrec
      · have he' : isEofLineV l = false := by simpa using he
        rw [hF he'] at hrec
        cases eof <;> simp [he'] at hrec ⊢ <;> exact hrec

/-- C7: among files whose lines all pass the line-level checks, a file
with no EOF record (and no overlapping data) is rejected with the
missing-EOF error after all lines are consumed; a second EOF record is
rejected with the multiple-EOF error; and any accepted file contains
exactly one EOF record. -/
theorem validate_eof_cardinality :
    (∀ (lines : List Line) (err : String),
      (∀ l ∈ lines, lineOk l = true) →
      (∀ l ∈ lines, isEofLineV l = false) →
      (addrTrace lines 0).Nodup →
      validateHexFile lines err = some (false, "Missing EOF record.")) ∧
    (∀ (l : Line) (ls : List Line) (n : Nat) (ext : Nat) (w : List Nat) (err : String),
      lineOk l = true → isEofLineV l = true →
      validateLines (l :: ls) n true ext w err =
        some (false, "Multiple EOF records detected.")) ∧
    (∀ (lines : List Line) (err r : String),
      validateHexFile lines err = some (true, r) →
      lines.countP isEofLineV = 1) := by
  refine ⟨?_, validateLines_second_eof, ?_⟩
  · intro lines err hok hnoe hnd
    exact validateLines_missing_eof_aux lines 0 0 [] err hok hnoe (by simpa using hnd)
  · intro lines err r h
    have := validateLines_true_eofCount lines 0 false 0 [] err r h
    simpa using this

/-- Witness for C7 at concrete files. -/
theorem validate_eof_cardinality_witness :
    validateHexFile [dataLineA] "" = some (false, "Missing EOF record.") ∧
    validateLines [eofLine] 0 true 0 [] "" =
      some (false, "Multiple EOF records detected.") ∧
    [eofLine].countP isEofLineV = 1 :=
  ⟨validate_eof_cardinality.1 [dataLineA] "" (by decide) (by decide) (by decide),
   validate_eof_cardinality.2.1 eofLine [] 0 0 [] "" (by decide) (by decide),
   validate_eof_cardinality.2.2 [eofLine] "" "" (by decide)⟩

/-! ### Memory-image write lemmas and builder composition (C5) -/

theorem mapFind_insert_self (m : MemoryImage) (k v : Nat) :
    mapFind (mapInsert m k v) k = some v := by
  induction m with
  | nil => simp [mapInsert, mapFind]
  | cons p rest ih =>
    obtain ⟨k', v'⟩ := p
    unfold mapInsert
    by_cases h1 : k < k'
    · rw [if_pos h1]
      simp [mapFind]
    · rw [if_neg h1]
      by_cases h2 : k = k'
      · rw [if_pos h2]
        simp [mapFind]
      · rw [if_neg h2]
        simp [mapFind, h2, ih]

theorem mapFind_insert_ne (m : MemoryImage) (k v k' : Nat) (h : k' ≠ k) :
    mapFind (mapInsert m k v) k' = mapFind m k' := by
  induction m with
  | nil => simp [mapInsert, mapFind, h]
  | cons p rest ih =>
    obtain ⟨k0, v0⟩ := p
    unfold mapInsert
    by_cases h1 : k < k0
    · rw [if_pos h1]
      simp [mapFind, h]
    · rw [if_neg h1]
      by_cases h2 : k = k0
      · rw [if_pos h2]
        subst h2
        simp [mapFind, h]
      · rw [if_neg h2]
        by_cases h3 : k' = k0
        · simp [mapFind, h3]
        · simp [mapFind, h3, ih]

theorem writeBytes_find_lower :
    ∀ (bs : List Nat) (m : MemoryImage) (a k : Nat), k < a → a + bs.length ≤ U32 →
      mapFind (writeBytes m a bs) k = mapFind m k := by
  intro bs
  induction bs with
  | nil => intro m a k _ _; rfl
  | cons b bs ih =>
    intro m a k hk hle
    have ha : a % U32 = a := Nat.mod_eq_of_lt (by simp at hle; omega)
    show mapFind (writeBytes (mapInsert m (a % U32) b) (a + 1) bs) k = mapFind m k
    rw [ih (mapInsert m (a % U32) b) (a + 1) k (by omega) (by simp at hle ⊢; omega)]
    rw [ha]
    exact mapFind_insert_ne m a b k (by omega)

theorem writeBytes_find_at :
    ∀ (bs : List Nat) (m : MemoryImage) (a : Nat) (i : Nat) (h : i < bs.length),
      a + bs.length ≤ U32 →
      mapFind (writeBytes m a bs) (a + i) = some (bs.get ⟨i, h⟩) := by
  intro bs
  induction bs with
  | nil => intro m a i h; simp at h
  | cons b bs ih =>
    intro m a i h hle
    have ha : a % U32 = a := Nat.mod_eq_of_lt (by simp at hle; omega)
    cases i with
    | zero =>
      show mapFind (writeBytes (mapInsert m (a % U32) b) (a + 1) bs) (a + 0) = some b
      rw [writeBytes_find_lower bs (mapInsert m (a % U32) b) (a + 1) (a + 0) (by omega)
        (by simp at hle ⊢; omega)]
      rw [ha]
      rw [show a + 0 = a from rfl]
      exact mapFind_insert_self m a b
    | succ j =>
      show mapFind (writeBytes (mapInsert m (a % U32) b) (a + 1) bs) (a + (j + 1)) =
        some ((b :: bs).get ⟨j + 1, h⟩)
      have hj : j < bs.length := by simp at h; omega
      have := ih (mapInsert m (a % U32) b) (a + 1) j hj (by simp at hle ⊢; omega)
      rw [show a + (j + 1) = (a + 1) + j from by omega]
      rw [this]
      rfl

theorem parseGoS_append :
    ∀ (pre rest : List Line) (ext : Nat) (m : MemoryImage) (E : Nat) (m' : MemoryImage),
      (∀ l ∈ pre, isEofRecordLine l = false) →
      parseGoS pre ext m = some (E, m') →
      parseGoS (pre ++ rest) ext m = parseGoS rest E m' := by
  intro pre
  induction pre with
  | nil =>
    intro rest ext m E m' _ hpre
    have h1 : ext = E ∧ m = m' := by simpa [parseGoS] using hpre
    obtain ⟨rfl, rfl⟩ := h1
    rfl
  | cons l pre ih =>
    intro rest ext m E m' hnoeof hpre
    by_cases hcol : l.head? = some ':'
    · rw [show (l :: pre) ++ rest = l :: (pre ++ rest) from rfl]
      simp only [parseGoS, hcol, ne_eq, not_true_eq_false, if_false] at hpre ⊢
      rcases h1 : parseHexByte l 1 with _ | bc <;> rw [h1] at hpre
      · simp at hpre
      rcases h3 : stoi16At l 3 with _ | addr <;> rw [h3] at hpre
      · simp at hpre
      rcases h7 : parseHexByte l 7 with _ | ty <;> rw [h7] at hpre
      · simp at hpre
      dsimp only [] at hpre ⊢
      have hneof : isEofRecordLine l = false := hnoeof l (List.mem_cons_self l pre)
      have htyne1 : ty ≠ 1 := by
        intro hc
        have : isEofRecordLine l = true := by
          unfold isEofRecordLine
          rw [h1, h3, h7, hc]
          simp [hcol]
        rw [this] at hneof
        exact absurd hneof (by simp)
      by_cases hty0 : ty = 0
      · rw [if_pos hty0] at hpre ⊢
        rcases hpl : readPayload l bc with _ | payload <;> rw [hpl] at hpre
        · simp at hpre
        · exact ih rest ext (writeBytes m (absAddr ext addr) payload) E m'
            (fun x hx => hnoeof x (List.mem_cons_of_mem l hx)) hpre
      · rw [if_neg hty0] at hpre ⊢
        by_cases hty4 : ty = 4
        · rw [if_pos hty4] at hpre ⊢
          rcases h9 : stoi16At l 9 with _ | e <;> rw [h9] at hpre
          · simp at hpre
          · exact ih rest e m E m'
              (fun x hx => hnoeof x (List.mem_cons_of_mem l hx)) hpre
        · rw [if_neg hty4] at hpre ⊢
          rw [if_neg htyne1] at hpre ⊢
          exact ih rest ext m E m'
            (fun x hx => hnoeof x (List.mem_cons_of_mem l hx)) hpre
    · rw [show (l :: pre) ++ rest = l :: (pre ++ rest) from rfl]
      simp only [parseGoS, hcol, ne_eq, not_false_eq_true, if_true] at hpre ⊢
      exact ih rest ext m E m' (fun x hx => hnoeof x (List.mem_cons_of_mem l hx)) hpre

theorem findQ_append (p : Line → Bool) :
    ∀ (l₁ l₂ : List Line), (l₁ ++ l₂).find? p =
      match l₁.find? p with
      | some x => some x
      | none => l₂.find? p := by
  intro l₁
  induction l₁ with
  | nil => intro l₂; rfl
  | cons a l₁ ih =>
    intro l₂
    by_cases hpa : p a = true
    · rw [List.cons_append, List.find?_cons_of_pos _ hpa, List.find?_cons_of_pos _ hpa]
    · rw [List.cons_append, List.find?_cons_of_neg _ hpa, List.find?_cons_of_neg _ hpa, ih]

theorem lastExtFrom_cons_notExt (ext : Nat) (l : Line) (pre : List Line)
    (h : isExtRecordLine l = false) :
    lastExtFrom ext (l :: pre) = lastExtFrom ext pre := by
  unfold lastExtFrom
  rw [List.reverse_cons, findQ_append]
  cases hf : pre.reverse.find? isExtRecordLine
  · rw [List.find?_cons_of_neg _ (by simp [h])]
    rfl
  · rfl

theorem lastExtFrom_cons_ext (ext : Nat) (l : Line) (pre : List Line) (e : Nat)
    (h : isExtRecordLine l = true) (h9 : stoi16At l 9 = some e) :
    lastExtFrom ext (l :: pre) = lastExtFrom e pre := by
  unfold lastExtFrom
  rw [List.reverse_cons, findQ_append]
  cases hf : pre.reverse.find? isExtRecordLine
  · rw [List.find?_cons_of_pos _ h]
    show (stoi16At l 9).getD 0 = e
    rw [h9]
    rfl
  · rfl

theorem parseGoS_ext_eq_lastExt :
    ∀ (pre : List Line) (ext : Nat) (m : MemoryImage) (E : Nat) (m' : MemoryImage),
      (∀ l ∈ pre, isEofRecordLine l = false) →
      parseGoS pre ext m = some (E, m') →
      E = lastExtFrom ext pre := by
  intro pre
  induction pre with
  | nil =>
    intro ext m E m' _ hpre
    have h1 : ext = E ∧ m = m' := by simpa [parseGoS] using hpre
    rw [← h1.1]
    rfl
  | cons l pre ih =>
    intro ext m E m' hnoeof hpre
    by_cases hcol : l.head? = some ':'
    · simp only [parseGoS, hcol, ne_eq, not_true_eq_false, if_false] at hpre
      rcases h1 : parseHexByte l 1 with _ | bc <;> rw [h1] at hpre
      · simp at hpre
      rcases h3 : stoi16At l 3 with _ | addr <;> rw [h3] at hpre
      · simp at hpre
      rcases h7 : parseHexByte l 7 with _ | ty <;> rw [h7] at hpre
      · simp at hpre
      dsimp only [] at hpre
      have htyne1 : ty ≠ 1 := by
        intro hc
        have hEl : isEofRecordLine l = true := by
          unfold isEofRecordLine
          rw [h1, h3, h7, hc]
          simp [hcol]
        have := hnoeof l (List.mem_cons_self l pre)
        rw [hEl] at this
        exact absurd this (by simp)
      by_cases hty4 : ty = 4
      · have hExt : isExtRecordLine l = true := by
          unfold isExtRecordLine
          rw [h1, h3, h7, hty4]
          simp [hcol]
        rw [if_neg (show ¬ty = 0 by omega), if_pos hty4] at hpre
        rcases h9 : stoi16At l 9 with _ | e <;> rw [h9] at hpre
        · simp at hpre
        · rw [lastExtFrom_cons_ext ext l pre e hExt h9]
          exact ih e m E m' (fun x hx => hnoeof x (List.mem_cons_of_mem l hx)) hpre
      · have hExtF : isExtRecordLine l = false := by
          unfold isExtRecordLine
          rw [h1, h3, h7]
          simp [hcol, hty4]
        rw [lastExtFrom_cons_notExt ext l pre hExtF]
        by_cases hty0 : ty = 0
        · rw [if_pos hty0] at hpre
          rcases hpl : readPayload l bc with _ | payload <;> rw [hpl] at hpre
          · simp at hpre
          · exact ih ext (writeBytes m (absAddr ext addr) payload) E m'
              (fun x hx => hnoeof x (List.mem_cons_of_mem l hx)) hpre
        · rw [if_neg hty0, if_neg hty4, if_neg htyne1] at hpre
          exact ih ext m E m' (fun x hx => hnoeof x (List.mem_cons_of_mem l hx)) hpre
    · have hExtF : isExtRecordLine l = false := by
        unfold isExtRecordLine
        simp [hcol]
      rw [lastExtFrom_cons_notExt ext l pre hExtF]
      simp only [parseGoS, hcol, ne_eq, not_false_eq_true, if_true] at hpre
      exact ih ext m E m' (fun x hx => hnoeof x (List.mem_cons_of_mem l hx)) hpre

/-- C5: when the lenient builder processes a data record after a prefix
`pre` (containing no EOF record) that parsed to state `(E, m)`, `E` is
the 16-bit value of the most recently seen type-0x04 record of `pre`
(0 if none), the parse continues with every payload byte written at
`((E << 16) | address16) + i`, and each written byte is found at
exactly that absolute address. -/
theorem builder_data_placement
    (pre ls : List Line) (l : Line) (E : Nat) (m : MemoryImage)
    (bc addr : Nat) (payload : List Nat)
    (hnoeof : ∀ p ∈ pre, isEofRecordLine p = false)
    (hpre : parseGoS pre 0 [] = some (E, m))
    (hcol : l.head? = some ':')
    (hbc : parseHexByte l 1 = some bc)
    (haddr : stoi16At l 3 = some addr)
    (hty : parseHexByte l 7 = some 0)
    (hpl : readPayload l bc = some payload)
    (hnw : absAddr E addr + payload.length ≤ U32) :
    E = lastExtFrom 0 pre ∧
    parseGoS (pre ++ l :: ls) 0 [] =
      parseGoS ls E (writeBytes m (absAddr E addr) payload) ∧
    ∀ i (h : i < payload.length),
      mapFind (writeBytes m (absAddr E addr) payload) (absAddr E addr + i) =
        some (payload.get ⟨i, h⟩) := by
  refine ⟨parseGoS_ext_eq_lastExt pre 0 [] E m hnoeof hpre, ?_, ?_⟩
  · rw [parseGoS_append pre (l :: ls) 0 [] E m hnoeof hpre]
    simp only [parseGoS, hcol, ne_eq, not_true_eq_false, if_false]
    rw [hbc, haddr, hty]
    dsimp only []
    rw [if_pos rfl, hpl]
  · intro i h
    exact writeBytes_find_at payload m (absAddr E addr) i h hnw

/-- Witness for C5: a byte written under extended-linear-address state
0x0001 lands at absolute address 0x10000 (not at address16 alone). -/
theorem builder_data_placement_witness :
    1 = lastExtFrom 0 [extLine1] ∧
    parseGoS ([extLine1] ++ [dataLineB]) 0 [] =
      parseGoS [] 1 (writeBytes [] (absAddr 1 0) [0x55]) ∧
    ∀ i (h : i < [0x55].length),
      mapFind (writeBytes [] (absAddr 1 0) [0x55]) (absAddr 1 0 + i) =
        some ([0x55].get ⟨i, h⟩) :=
  builder_data_placement [extLine1] [] dataLineB 1 [] 1 0 [0x55]
    (by decide) (by rfl) (by rfl) (by rfl) (by rfl) (by rfl) (by rfl) (by decide)

/-! ### Signature scanner lemmas (C2) -/

theorem sortedB_tail {p : Nat × Nat} {rest : MemoryImage}
    (h : mapSortedB (p :: rest) = true) : mapSortedB rest = true := by
  cases rest with
  | nil => rfl
  | cons q rs => exact (mapSortedB_cons_cons h).2

theorem sortedB_head_lt {p : Nat × Nat} {rest : MemoryImage}
    (h : mapSortedB (p :: rest) = true) :
    ∀ q ∈ rest, p.1 < q.1 := by
  induction rest generalizing p with
  | nil => intro q hq; simp at hq
  | cons r rs ih =>
    intro q hq
    obtain ⟨hlt, hrest⟩ := mapSortedB_cons_cons h
    rcases List.mem_cons.mp hq with hq1 | hq2
    · rw [hq1]; exact hlt
    · exact lt_trans hlt (ih hrest q hq2)

theorem sortedB_suffix :
    ∀ (x y : MemoryImage), mapSortedB (x ++ y) = true → mapSortedB y = true := by
  intro x
  induction x with
  | nil => intro y h; exact h
  | cons p x ih =>
    intro y h
    exact ih y (sortedB_tail h)

theorem sortedB_keys_nodup :
    ∀ (m : MemoryImage), mapSortedB m = true → (m.map Prod.fst).Nodup := by
  intro m
  induction m with
  | nil => intro _; simp
  | cons p rest ih =>
    intro hs
    rw [List.map_cons, List.nodup_cons]
    refine ⟨?_, ih (sortedB_tail hs)⟩
    intro hmem
    obtain ⟨q, hq, hqk⟩ := List.mem_map.mp hmem
    have := sortedB_head_lt hs q hq
    omega

theorem mem_of_mapFind_eq_some :
    ∀ (m : MemoryImage) (k v : Nat), mapFind m k = some v → (k, v) ∈ m := by
  intro m
  induction m with
  | nil => intro k v h; simp [mapFind] at h
  | cons p rest ih =>
    intro k v h
    obtain ⟨k0, v0⟩ := p
    unfold mapFind at h
    by_cases hk : k = k0
    · rw [if_pos hk] at h
      subst hk
      have : v0 = v := by simpa using h
      subst this
      exact List.mem_cons_self _ _
    · rw [if_neg hk] at h
      exact List.mem_cons_of_mem _ (ih k v h)

theorem mapFind_eq_some_of_mem :
    ∀ (m : MemoryImage), mapSortedB m = true → ∀ (k v : Nat), (k, v) ∈ m →
      mapFind m k = some v := by
  intro m
  induction m with
  | nil => intro _ k v h; simp at h
  | cons p rest ih =>
    intro hs k v h
    obtain ⟨k0, v0⟩ := p
    unfold mapFind
    rcases List.mem_cons.mp h with h1 | h2
    · have hk : k = k0 := congrArg Prod.fst h1
      have hv : v = v0 := congrArg Prod.snd h1
      rw [if_pos hk, hv]
    · by_cases hk : k = k0
      · exfalso
        have := sortedB_head_lt hs (k, v) h2
        simp at this
        omega
      · rw [if_neg hk]
        exact ih (sortedB_tail hs) k v h2

theorem runMatches_iff (mem : MemoryImage) (a : Nat) :
    ∀ (ps : List Nat) (i : Nat),
      runMatches mem a i ps = true ↔
        ∀ j, j < ps.length → mapFind mem ((a + (i + j)) % U32) = some (ps.getD j 0) := by
  intro ps
  induction ps with
  | nil => intro i; simp [runMatches]
  | cons p ps ih =>
    intro i
    constructor
    · intro h j hj
      unfold runMatches at h
      rcases hf : mapFind mem ((a + i) % U32) with _ | v <;> rw [hf] at h
      · simp at h
      · dsimp only [] at h
        by_cases hv : v = p
        · rw [if_pos hv] at h
          cases j with
          | zero =>
            rw [show i + 0 = i from rfl]
            rw [hf, hv]
            rfl
          | succ j =>
            have hj2 : j < ps.length := by simpa using hj
            have hrec := (ih (i + 1)).mp h j hj2
            rw [show i + (j + 1) = i + 1 + j from by omega]
            exact hrec
        · rw [if_neg hv] at h
          simp at h
    · intro h
      unfold runMatches
      have h0 := h 0 (by simp)
      have h0e : mapFind mem ((a + i) % U32) = some p := by
        rw [show i + 0 = i from rfl] at h0
        simpa using h0
      rw [h0e]
      dsimp only []
      rw [if_pos rfl]
      refine (ih (i + 1)).mpr ?_
      intro j hj
      have hrec := h (j + 1) (by simpa using Nat.succ_lt_succ hj)
      rw [show i + 1 + j = i + (j + 1) from by omega]
      simpa using hrec

theorem mod_shift_inj {a i j : Nat} (hi : i < 16) (hj : j < 16)
    (h : (a + i) % U32 = (a + j) % U32) : i = j := by
  have hU : U32 = 4294967296 := rfl
  have h1 : (a + i) ≡ (a + j) [MOD U32] := h
  have h2 : i ≡ j [MOD U32] := Nat.ModEq.add_left_cancel' a h1
  have h3 : i % U32 = j % U32 := h2
  rw [Nat.mod_eq_of_lt (by omega), Nat.mod_eq_of_lt (by omega)] at h3
  exact h3

theorem sigMatch_le_length (mem : MemoryImage) (_hs : mapSortedB mem = true) (a : Nat)
    (hm : sigMatchAt mem a) : 16 ≤ mem.length := by
  have hLsub : ((List.range 16).map (fun i => (a + i) % U32)) ⊆ mem.map Prod.fst := by
    intro x hx
    obtain ⟨i, hi, hxi⟩ := List.mem_map.mp hx
    have hi16 : i < 16 := List.mem_range.mp hi
    have hfind := hm i hi16
    have hmem := mem_of_mapFind_eq_some mem _ _ hfind
    rw [← hxi]
    exact List.mem_map_of_mem Prod.fst hmem
  have hLnd : ((List.range 16).map (fun i => (a + i) % U32)).Nodup := by
    refine List.Nodup.map_on ?_ (List.nodup_range 16)
    intro x hx y hy hxy
    exact mod_shift_inj (List.mem_range.mp hx) (List.mem_range.mp hy) hxy
  have hle := (List.subperm_of_subset hLnd hLsub).length_le
  simpa using hle

theorem sigMatchAt_mod (mem : MemoryImage) (a : Nat) :
    sigMatchAt mem a ↔ sigMatchAt mem (a % U32) := by
  unfold sigMatchAt
  constructor <;> intro h i hi <;> have hh := h i hi
  · rw [Nat.mod_add_mod]
    exact hh
  · rw [← Nat.mod_add_mod]
    exact hh

theorem cand_iff_sigMatch (mem : MemoryImage) (hs : mapSortedB mem = true)
    (hK : ∀ p ∈ mem, p.1 < U32) (b v : Nat) (hmem : (b, v) ∈ mem) :
    ((v == kBootSig.headI) && runMatches mem b 1 (kBootSig.drop 1)) = true ↔
      sigMatchAt mem b := by
  have hbU : b < U32 := hK (b, v) hmem
  have hfind : mapFind mem b = some v := mapFind_eq_some_of_mem mem hs b v hmem
  have hb0 : (b + 0) % U32 = b := by rw [Nat.add_zero, Nat.mod_eq_of_lt hbU]
  have hD : ∀ jj, jj < 15 → (kBootSig.drop 1).getD jj 0 = kBootSig.getD (jj + 1) 0 := by decide
  have hL : (kBootSig.drop 1).length = 15 := rfl
  constructor
  · intro hc
    rw [Bool.and_eq_true] at hc
    obtain ⟨hcv, hrun⟩ := hc
    have hv : v = kBootSig.headI := by simpa using hcv
    intro i hi
    cases i with
    | zero =>
      rw [hb0, hfind, hv]
      rfl
    | succ j =>
      have hj : j < 15 := by omega
      have hrec := (runMatches_iff mem b (kBootSig.drop 1) 1).mp hrun j (by rw [hL]; omega)
      rw [show b + (j + 1) = b + (1 + j) from by omega]
      rw [hrec, hD j hj]
  · intro hm
    rw [Bool.and_eq_true]
    constructor
    · have h0 := hm 0 (by omega)
      rw [hb0, hfind] at h0
      have hv : v = kBootSig.getD 0 0 := by simpa using h0
      rw [hv]
      rfl
    · refine (runMatches_iff mem b (kBootSig.drop 1) 1).mpr ?_
      intro j hj
      have hj15 : j < 15 := by rw [hL] at hj; exact hj
      have hmi := hm (1 + j) (by omega)
      rw [hmi, hD j hj15, Nat.add_comm 1 j]

theorem findPatFrom_eq_some_split (mem : MemoryImage) (pat : List Nat) :
    ∀ (scan : List (Nat × Nat)) (a : Nat),
      findPatFrom mem pat scan = some a →
      ∃ l1 v l2, scan = l1 ++ (a, v) :: l2 ∧
        ((v == pat.headI) && runMatches mem a 1 (pat.drop 1)) = true ∧
        ∀ q ∈ l1, ((q.2 == pat.headI) && runMatches mem q.1 1 (pat.drop 1)) = false := by
  intro scan
  induction scan with
  | nil => intro a h; simp [findPatFrom] at h
  | cons bw scan ih =>
    intro a h
    obtain ⟨b, w⟩ := bw
    unfold findPatFrom at h
    by_cases hw : w ≠ pat.headI
    · rw [if_pos hw] at h
      obtain ⟨l1, v, l2, hsp, hc, hfail⟩ := ih a h
      refine ⟨(b, w) :: l1, v, l2, by rw [List.cons_append, hsp], hc, ?_⟩
      intro q hq
      rcases List.mem_cons.mp hq with h1 | h2
      · rw [h1]
        have hwf : (w == pat.headI) = false := by simpa using hw
        simp [hwf]
      · exact hfail q h2
    · rw [if_neg hw] at h
      have hw' : w = pat.headI := by simpa using hw
      by_cases hrun : runMatches mem b 1 (pat.drop 1) = true
      · rw [if_pos hrun] at h
        have hab : b = a := by simpa using h
        subst hab
        refine ⟨[], w, scan, rfl, ?_, by simp⟩
        rw [Bool.and_eq_true]
        exact ⟨by simp [hw'], hrun⟩
      · rw [if_neg hrun] at h
        obtain ⟨l1, v, l2, hsp, hc, hfail⟩ := ih a h
        refine ⟨(b, w) :: l1, v, l2, by rw [List.cons_append, hsp], hc, ?_⟩
        intro q hq
        rcases List.mem_cons.mp hq with h1 | h2
        · rw [h1]
          have hrf : runMatches mem b 1 (pat.drop 1) = false := by simpa using hrun
          show ((w == pat.headI) && runMatches mem b 1 (pat.drop 1)) = false
          rw [hrf, Bool.and_false]
        · exact hfail q h2

theorem findPatFrom_eq_none_all (mem : MemoryImage) (pat : List Nat) :
    ∀ (scan : List (Nat × Nat)), findPatFrom mem pat scan = none →
      ∀ q ∈ scan, ((q.2 == pat.headI) && runMatches mem q.1 1 (pat.drop 1)) = false := by
  intro scan
  induction scan with
  | nil => intro _ q hq; simp at hq
  | cons bw scan ih =>
    intro h q hq
    obtain ⟨b, w⟩ := bw
    unfold findPatFrom at h
    by_cases hw : w ≠ pat.headI
    · rw [if_pos hw] at h
      rcases List.mem_cons.mp hq with h1 | h2
      · rw [h1]
        have hwf : (w == pat.headI) = false := by simpa using hw
        simp [hwf]
      · exact ih h q h2
    · rw [if_neg hw] at h
      by_cases hrun : runMatches mem b 1 (pat.drop 1) = true
      · rw [if_pos hrun] at h
        simp at h
      · rw [if_neg hrun] at h
        rcases List.mem_cons.mp hq with h1 | h2
        · rw [h1]
          have hrf : runMatches mem b 1 (pat.drop 1) = false := by simpa using hrun
          show ((w == pat.headI) && runMatches mem b 1 (pat.drop 1)) = false
          rw [hrf, Bool.and_false]
        · exact ih h q h2

/-- C2: over a well-formed image (ascending unique `uint32_t` keys),
version extraction fails when the image has fewer than 16 entries, and
it succeeds with bytes `M`/`minor` exactly when there is a lowest
address `a` at which the whole 16-byte signature run is present
(any missing address disqualifies a candidate, since `sigMatchAt`
requires every lookup to succeed) and the two bytes at `a+16` and
`a+17` are both present, in which case those are returned. -/
theorem extract_version_spec (mem : MemoryImage)
    (hs : mapSortedB mem = true) (hK : ∀ p ∈ mem, p.1 < U32) :
    (mem.length < 16 → extractVersionFromMem mem = none) ∧
    ∀ M minor, (extractVersionFromMem mem = some (M, minor) ↔
      ∃ a, sigMatchAt mem a ∧ (∀ b, b < a → ¬sigMatchAt mem b) ∧
        mapFind mem ((a + 16) % U32) = some M ∧
        mapFind mem ((a + 17) % U32) = some minor) := by
  have h17 : ∀ a : Nat, ((a + 16) % U32 + 1) % U32 = (a + 17) % U32 := by
    intro a
    rw [Nat.mod_add_mod]
  constructor
  · intro hlt
    unfold extractVersionFromMem findPatternAddress
    rw [if_pos (by rw [show kBootSig.length = 16 from rfl]; exact hlt)]
  · intro M minor
    constructor
    · intro h
      unfold extractVersionFromMem at h
      rcases hfp : findPatternAddress mem kBootSig with _ | a
      · rw [hfp] at h
        simp at h
      · rw [hfp] at h
        dsimp only [] at h
        unfold findPatternAddress at hfp
        by_cases hguard : mem.length < kBootSig.length
        · rw [if_pos hguard] at hfp
          simp at hfp
        · rw [if_neg hguard] at hfp
          obtain ⟨l1, v, l2, hsp, hc, hfail⟩ := findPatFrom_eq_some_split mem kBootSig mem a hfp
          have hmemA : (a, v) ∈ mem := by
            rw [hsp]
            exact List.mem_append_right _ (List.mem_cons_self _ _)
          have hsig : sigMatchAt mem a := (cand_iff_sigMatch mem hs hK a v hmemA).mp hc
          rcases hM : mapFind mem ((a + 16) % U32) with _ | Mv <;> rw [hM] at h
          · simp at h
          rcases hm2 : mapFind mem (((a + 16) % U32 + 1) % U32) with _ | mv <;> rw [hm2] at h
          · simp at h
          have hMm : Mv = M ∧ mv = minor := by simpa using h
          refine ⟨a, hsig, ?_, by rw [hM, hMm.1], by rw [← h17 a, hm2, hMm.2]⟩
          intro b hb hsigb
          have haU : a < U32 := hK (a, v) hmemA
          have hbU : b < U32 := by omega
          have hbkey : mapFind mem b = some (kBootSig.getD 0 0) := by
            have h0 := hsigb 0 (by omega)
            rwa [show (b + 0) % U32 = b from by rw [Nat.add_zero, Nat.mod_eq_of_lt hbU]] at h0
          have hbmem : (b, kBootSig.getD 0 0) ∈ mem := mem_of_mapFind_eq_some mem _ _ hbkey
          have hbcand := (cand_iff_sigMatch mem hs hK b _ hbmem).mpr hsigb
          rw [hsp] at hbmem
          rcases List.mem_append.mp hbmem with h1 | h2
          · have hx := hfail _ h1
            dsimp only [] at hx
            rw [hx] at hbcand
            exact absurd hbcand (by simp)
          · rcases List.mem_cons.mp h2 with h3 | h4
            · have hba : b = a := congrArg Prod.fst h3
              omega
            · have hsuf : mapSortedB ((a, v) :: l2) = true :=
                sortedB_suffix l1 _ (by rw [← hsp]; exact hs)
              have hlt := sortedB_head_lt hsuf _ h4
              simp at hlt
              omega
    · rintro ⟨a, hsig, hmin, hM, hm2⟩
      have haU : a < U32 := by
        by_contra hge
        have h1 : sigMatchAt mem (a % U32) := (sigMatchAt_mod mem a).mp hsig
        have h2 : a % U32 < a :=
          lt_of_lt_of_le (Nat.mod_lt a (by decide)) (by omega)
        exact hmin _ h2 h1
      have h0 := hsig 0 (by omega)
      rw [show (a + 0) % U32 = a from by rw [Nat.add_zero, Nat.mod_eq_of_lt haU]] at h0
      have hamem : (a, kBootSig.getD 0 0) ∈ mem := mem_of_mapFind_eq_some mem _ _ h0
      have hacand := (cand_iff_sigMatch mem hs hK a _ hamem).mpr hsig
      have hlen := sigMatch_le_length mem hs a hsig
      unfold extractVersionFromMem findPatternAddress
      rw [if_neg (by rw [show kBootSig.length = 16 from rfl]; omega)]
      rcases hfp : findPatFrom mem kBootSig mem with _ | a2
      · exfalso
        have hall := findPatFrom_eq_none_all mem kBootSig mem hfp _ hamem
        dsimp only [] at hall
        rw [hall] at hacand
        exact absurd hacand (by simp)
      · obtain ⟨l1, v, l2, hsp, hc, hfail⟩ := findPatFrom_eq_some_split mem kBootSig mem a2 hfp
        have hmemA2 : (a2, v) ∈ mem := by
          rw [hsp]
          exact List.mem_append_right _ (List.mem_cons_self _ _)
        have hsig2 : sigMatchAt mem a2 := (cand_iff_sigMatch mem hs hK a2 v hmemA2).mp hc
        have haa : a2 = a := by
          have hamem2 := hamem
          rw [hsp] at hamem2
          rcases List.mem_append.mp hamem2 with h1 | h2
          · have hx := hfail _ h1
            dsimp only [] at hx
            rw [hx] at hacand
            exact absurd hacand (by simp)
          · rcases List.mem_cons.mp h2 with h3 | h4
            · exact (congrArg Prod.fst h3).symm
            · exfalso
              have hsuf : mapSortedB ((a2, v) :: l2) = true :=
                sortedB_suffix l1 _ (by rw [← hsp]; exact hs)
              have hlt := sortedB_head_lt hsuf _ h4
              simp at hlt
              exact hmin a2 (by omega) hsig2
        subst haa
        dsimp only []
        rw [hM, h17 a2, hm2]

/-- Witness for C2 at a concrete image holding the signature at 0x8000
followed by version bytes 0x06 and 0x68. -/
theorem extract_version_spec_witness :
    (sigImage.length < 16 → extractVersionFromMem sigImage = none) ∧
    ∀ M minor, (extractVersionFromMem sigImage = some (M, minor) ↔
      ∃ a, sigMatchAt sigImage a ∧ (∀ b, b < a → ¬sigMatchAt sigImage b) ∧
        mapFind sigImage ((a + 16) % U32) = some M ∧
        mapFind sigImage ((a + 17) % U32) = some minor) :=
  extract_version_spec sigImage (by decide) (by decide)

end IntelHex
